import Mathlib

set_option maxHeartbeats 1000000

/-- A node of the chain (`Piece` in the C++ source). `nxt` is the successor
pointer, modelled as an optional heap address (an index into the heap list).
`log` records the points passed to the node-level point/penalty accumulator
(see `pieceAddPointAndPenalty`). -/
structure Piece where
  nxt : Option Nat
  log : List Nat
deriving DecidableEq

/-- The `ListPiece` object of the C++ source: a heap of allocated nodes
(addressed by list index; none of the modelled operations frees a node, so
allocation is append-only and addresses are stable), together with the four
`Piece*` fields and the `unsigned int` length counter. -/
structure ListPiece where
  heap : List Piece
  head : Option Nat
  tail : Option Nat
  lastActivePiece : Option Nat
  currentPiece : Option Nat
  lengthList : Nat
deriving DecidableEq

/-- 2^32, the modulus of the C++ `unsigned int` counter `lengthList`. -/
def u32 : Nat := 4294967296

/-- Overwrite the piece stored at address `a` (no-op when out of range). -/
def hwrite : List Piece → Nat → Piece → List Piece
  | [], _, _ => []
  | _ :: t, 0, v => v :: t
  | p :: t, n+1, v => p :: hwrite t n v

theorem hwrite_length : ∀ (h : List Piece) (n : Nat) (v : Piece),
    (hwrite h n v).length = h.length := by
  intro h
  induction h with
  | nil => intro n v; rfl
  | cons p t ih =>
      intro n v
      cases n with
      | zero => rfl
      | succ m => simp [hwrite, ih]

theorem hwrite_get_self : ∀ (h : List Piece) (n : Nat) (v : Piece),
    n < h.length → (hwrite h n v).get? n = some v := by
  intro h
  induction h with
  | nil => intro n v hn; simp at hn
  | cons p t ih =>
      intro n v hn
      cases n with
      | zero => rfl
      | succ m =>
          simp only [List.length_cons, Nat.succ_lt_succ_iff] at hn
          simpa [hwrite] using ih m v hn

theorem hwrite_get_ne : ∀ (h : List Piece) (n m : Nat) (v : Piece),
    m ≠ n → (hwrite h n v).get? m = h.get? m := by
  intro h
  induction h with
  | nil => intro n m v _; rfl
  | cons p t ih =>
      intro n m v hmn
      cases n with
      | zero =>
          cases m with
          | zero => exact absurd rfl hmn
          | succ k => rfl
      | succ n0 =>
          cases m with
          | zero => rfl
          | succ k =>
              simpa [hwrite] using ih n0 k v (by omega)

theorem get?_lt_length : ∀ (h : List Piece) (a : Nat) (p : Piece),
    h.get? a = some p → a < h.length := by
  intro h a p hget
  by_contra hlt
  rw [List.get?_eq_none.mpr (by omega)] at hget
  exact Option.noConfusion hget

/-- `ListPiece::ListPiece()` — construct the empty list: one sentinel node
(allocated at address 0) with a null successor; `tail`, `lastActivePiece`
and `currentPiece` all at the sentinel; `lengthList = 0`. -/
def ListPiece.mkEmpty : ListPiece :=
  { heap := [{ nxt := none, log := [] }]
  , head := some 0
  , tail := some 0
  , lastActivePiece := some 0
  , currentPiece := some 0
  , lengthList := 0 }

/-- `ListPiece::addPiece(Piece* newP)`. The caller-allocated node `newP` is
given the fresh address `s.heap.length`. The branch test reads
`lastActivePiece->nxt`; `none` models a dereference through an invalid
`lastActivePiece`. First branch, statement by statement:
`tail = newP; tail->nxt = NULL; lastActivePiece->nxt = tail;
lastActivePiece = tail;`. Second branch:
`lastActivePiece = lastActivePiece->nxt; lastActivePiece = newP;`
(the first assignment is immediately overwritten and no link is written).
`lengthList++` happens in both branches. -/
def ListPiece.addPiece (s : ListPiece) (newP : Piece) : Option ListPiece :=
  match s.lastActivePiece with
  | none => none
  | some lap =>
    match s.heap.get? lap with
    | none => none
    | some lapP =>
      let a := s.heap.length
      let h0 := s.heap ++ [newP]
      match lapP.nxt with
      | none =>
          let h1 := hwrite h0 a { newP with nxt := none }
          let h2 := hwrite h1 lap { lapP with nxt := some a }
          some { s with heap := h2, tail := some a, lastActivePiece := some a,
                        lengthList := (s.lengthList + 1) % u32 }
      | some _ =>
          some { s with heap := h0, lastActivePiece := some a,
                        lengthList := (s.lengthList + 1) % u32 }

/-- `ListPiece::move()` — `currentPiece = currentPiece->nxt;`.
`none` models the dereference of a null or invalid `currentPiece`. -/
def ListPiece.move (s : ListPiece) : Option ListPiece :=
  match s.currentPiece with
  | none => none
  | some c =>
    match s.heap.get? c with
    | none => none
    | some p => some { s with currentPiece := p.nxt }

/-- `ListPiece::getLength()`. -/
def ListPiece.getLength (s : ListPiece) : Nat := s.lengthList

/-- `ListPiece::initializeCurrentPiece()` — `currentPiece = head;`. -/
def ListPiece.initCurrentPiece (s : ListPiece) : ListPiece :=
  { s with currentPiece := s.head }

/-- `ListPiece::deleteNxtPieceAndMove()`, statement by statement:
`tail->nxt = currentPiece->nxt;`
`currentPiece->nxt = currentPiece->nxt->nxt;`
`tail = tail->nxt;`
`tail->nxt = NULL;`
`lengthList--;` (unsigned, hence modulo 2^32).
`none` models a null or invalid dereference in one of the statements. -/
def ListPiece.deleteNxtPieceAndMove (s : ListPiece) : Option ListPiece :=
  match s.tail with
  | none => none
  | some t =>
    match s.currentPiece with
    | none => none
    | some c =>
      match s.heap.get? t with
      | none => none
      | some tP =>
        match s.heap.get? c with
        | none => none
        | some cP =>
          let h1 := hwrite s.heap t { tP with nxt := cP.nxt }
          match h1.get? c with
          | none => none
          | some cP1 =>
            match cP1.nxt with
            | none => none
            | some x =>
              match h1.get? x with
              | none => none
              | some xP =>
                let h2 := hwrite h1 c { cP1 with nxt := xP.nxt }
                match h2.get? t with
                | none => none
                | some tP2 =>
                  match tP2.nxt with
                  | none => none
                  | some t2 =>
                    match h2.get? t2 with
                    | none => none
                    | some tP3 =>
                      some { s with
                        heap := hwrite h2 t2 { tP3 with nxt := none },
                        tail := some t2,
                        lengthList := (s.lengthList + (u32 - 1)) % u32 }

/-- Modelled from the spec: `Piece::addPointAndPenalty(Point)` is external to
the given source (only its call site in `ListPiece.cpp` is visible); the spec
says it mutates the node to account for the point's contribution and penalty.
We model it by recording the point in the node's log, which is exactly what
the list-level claims (which node is visited, how many times, in what order)
need. -/
def pieceAddPointAndPenalty (p : Piece) (pt : Nat) : Piece :=
  { p with log := p.log ++ [pt] }

/-- The `while (currentPiece != NULL)` loop of the C++
`ListPiece::addPointAndPenalty`, with fuel (the C++ loop diverges on a
cyclic chain; `none` models divergence or an invalid dereference). Returns
the final state together with the addresses of the nodes on which the
node-level `addPointAndPenalty` was invoked, in invocation order. -/
def broadcastLoop (pt : Nat) : Nat → ListPiece → Option (ListPiece × List Nat)
  | 0, _ => none
  | fuel+1, s =>
    match s.currentPiece with
    | none => some (s, [])
    | some c =>
      match s.heap.get? c with
      | none => none
      | some p =>
        match broadcastLoop pt fuel
            { s with heap := hwrite s.heap c (pieceAddPointAndPenalty p pt),
                     currentPiece := p.nxt } with
        | none => none
        | some (s1, vs) => some (s1, c :: vs)

/-- `ListPiece::addPointAndPenalty(Point const&, Edge const&)`:
`currentPiece = head;` followed by the visit loop (the `edge` argument is
unused by the C++ body). Fuel `heap.length + 1` suffices for every
well-formed chain (proved below). -/
def ListPiece.addPointAndPenalty (s : ListPiece) (pt : Nat) :
    Option (ListPiece × List Nat) :=
  broadcastLoop pt (s.heap.length + 1) { s with currentPiece := s.head }

/-- `ListPiece::edgeConstraintLP(Edge const&, int, Bound const&)` — the body
in the source is empty: no statement executes, so the receiver is untouched,
and control falls off the end of a value-returning function, so no
`ListPiece` value is produced (modelled as `none`). `Edge` and `Bound` are
opaque and modelled as bare arguments. The result is the pair (receiver
after the call, returned value). -/
def ListPiece.edgeConstraintLP (s : ListPiece) (_edge : Nat) (_newLabel : Int)
    (_bound : Nat) : ListPiece × Option ListPiece :=
  (s, none)

/-- `segIs h l o r`: starting from pointer `o`, following the `nxt` links in
heap `h` visits exactly the addresses in `l` (in order), after which the
pointer equals `r`. -/
def segIs (h : List Piece) : List Nat → Option Nat → Option Nat → Bool
  | [], o, r => decide (o = r)
  | b :: l, o, r =>
    decide (o = some b) &&
      (match h.get? b with
       | none => false
       | some p => segIs h l p.nxt r)

/-- `chainIs h o l`: from pointer `o` the chain visits exactly `l` and then
terminates (reaches the null pointer). -/
def chainIs (h : List Piece) (o : Option Nat) (l : List Nat) : Bool :=
  segIs h l o none

theorem segIs_nil_iff (h : List Piece) (o r : Option Nat) :
    segIs h [] o r = true ↔ o = r := by
  simp [segIs]

theorem segIs_cons_iff (h : List Piece) (b : Nat) (l : List Nat)
    (o r : Option Nat) :
    segIs h (b :: l) o r = true ↔
      o = some b ∧ ∃ p, h.get? b = some p ∧ segIs h l p.nxt r = true := by
  simp only [segIs, Bool.and_eq_true, decide_eq_true_eq]
  cases hgb : h.get? b with
  | none => simp
  | some p => simp

theorem segIs_append (h : List Piece) : ∀ (l1 l2 : List Nat) (o r : Option Nat),
    segIs h (l1 ++ l2) o r = true ↔
      ∃ m, segIs h l1 o m = true ∧ segIs h l2 m r = true := by
  intro l1
  induction l1 with
  | nil =>
      intro l2 o r
      simp [segIs_nil_iff]
  | cons b l ih =>
      intro l2 o r
      simp only [List.cons_append, segIs_cons_iff, ih]
      constructor
      · rintro ⟨ho, p, hp, m, h1, h2⟩
        exact ⟨m, ⟨ho, p, hp, h1⟩, h2⟩
      · rintro ⟨m, ⟨ho, p, hp, h1⟩, h2⟩
        exact ⟨ho, p, hp, m, h1, h2⟩

theorem segIs_det (h : List Piece) : ∀ (l1 : List Nat) (o : Option Nat)
    (l2 : List Nat), segIs h l1 o none = true → segIs h l2 o none = true →
    l1 = l2 := by
  intro l1
  induction l1 with
  | nil =>
      intro o l2 h1 h2
      rw [segIs_nil_iff] at h1
      subst h1
      cases l2 with
      | nil => rfl
      | cons b l =>
          rw [segIs_cons_iff] at h2
          exact absurd h2.1 (by simp)
  | cons b l ih =>
      intro o l2 h1 h2
      rw [segIs_cons_iff] at h1
      obtain ⟨ho, p, hp, hrest⟩ := h1
      cases l2 with
      | nil =>
          rw [segIs_nil_iff] at h2
          rw [h2] at ho
          exact Option.noConfusion ho
      | cons b2 l2 =>
          rw [segIs_cons_iff] at h2
          obtain ⟨ho2, p2, hp2, hrest2⟩ := h2
          rw [ho] at ho2
          have hb : b = b2 := Option.some.inj ho2
          subst hb
          rw [hp] at hp2
          have hpp : p = p2 := Option.some.inj hp2
          subst hpp
          rw [ih p.nxt l2 hrest hrest2]

theorem segIs_suffix (h : List Piece) (l1 : List Nat) (b : Nat) (l2 : List Nat)
    (o : Option Nat) (hseg : segIs h (l1 ++ b :: l2) o none = true) :
    segIs h (b :: l2) (some b) none = true := by
  rw [segIs_append] at hseg
  obtain ⟨m, -, h2⟩ := hseg
  obtain ⟨hm, -⟩ := (segIs_cons_iff h b l2 m none).mp h2
  rw [hm] at h2
  exact h2

theorem chain_nodup (h : List Piece) : ∀ (l : List Nat) (o : Option Nat),
    segIs h l o none = true → l.Nodup := by
  intro l
  induction l with
  | nil => intro o _; exact List.nodup_nil
  | cons b l ih =>
      intro o hseg
      obtain ⟨ho, p, hp, hrest⟩ := (segIs_cons_iff h b l o none).mp hseg
      refine List.nodup_cons.mpr ⟨?_, ih p.nxt hrest⟩
      intro hmem
      obtain ⟨u, v, huv⟩ := List.append_of_mem hmem
      have hfull : segIs h ((b :: u) ++ b :: v) o none = true := by
        rw [huv] at hseg
        simpa using hseg
      have hsuf : segIs h (b :: v) (some b) none = true :=
        segIs_suffix h (b :: u) b v o hfull
      have hall : segIs h (b :: l) (some b) none = true := by
        rw [ho] at hseg
        exact hseg
      have heq := segIs_det h (b :: l) (some b) (b :: v) hall hsuf
      have hlv : l = v := by injection heq
      rw [huv] at hlv
      have hlen : (u ++ b :: v).length = v.length := congrArg List.length hlv
      simp at hlen
      omega

theorem chain_alloc (h : List Piece) : ∀ (l : List Nat) (o r : Option Nat),
    segIs h l o r = true → ∀ a ∈ l, ∃ p, h.get? a = some p := by
  intro l
  induction l with
  | nil => intro o r _ a ha; simp at ha
  | cons b l ih =>
      intro o r hseg a ha
      obtain ⟨ho, p, hp, hrest⟩ := (segIs_cons_iff h b l o r).mp hseg
      rcases List.mem_cons.mp ha with rfl | hmem
      · exact ⟨p, hp⟩
      · exact ih p.nxt r hrest a hmem

theorem chain_length_le (h : List Piece) (l : List Nat) (o : Option Nat)
    (hseg : segIs h l o none = true) : l.length ≤ h.length := by
  have hnd := chain_nodup h l o hseg
  have hsub : l.toFinset ⊆ Finset.range h.length := by
    intro a ha
    rw [List.mem_toFinset] at ha
    obtain ⟨p, hp⟩ := chain_alloc h l o none hseg a ha
    rw [Finset.mem_range]
    exact get?_lt_length h a p hp
  have hcard := Finset.card_le_card hsub
  rw [Finset.card_range] at hcard
  rwa [List.toFinset_card_of_nodup hnd] at hcard

/-- The successor pointer stored at address `a` (with allocation status). -/
def nxtAt (h : List Piece) (a : Nat) : Option (Option Nat) :=
  (h.get? a).map Piece.nxt

theorem nxtAt_hwrite_self (h : List Piece) (n : Nat) (v : Piece)
    (hn : n < h.length) : nxtAt (hwrite h n v) n = some v.nxt := by
  unfold nxtAt
  rw [hwrite_get_self h n v hn]
  rfl

theorem nxtAt_hwrite_ne (h : List Piece) (n m : Nat) (v : Piece)
    (hmn : m ≠ n) : nxtAt (hwrite h n v) m = nxtAt h m := by
  unfold nxtAt
  rw [hwrite_get_ne h n m v hmn]

theorem bool_ext {a b : Bool} (h : a = true ↔ b = true) : a = b := by
  cases a <;> cases b <;> simp_all

theorem segIs_frame (h1 h2 : List Piece) : ∀ (l : List Nat) (o r : Option Nat),
    (∀ a ∈ l, nxtAt h2 a = nxtAt h1 a) →
    segIs h2 l o r = segIs h1 l o r := by
  intro l
  induction l with
  | nil => intro o r _; rfl
  | cons b l ih =>
      intro o r hfr
      have hb := hfr b (List.mem_cons_self b l)
      have ihl : ∀ m, segIs h2 l m r = segIs h1 l m r :=
        fun m => ih m r (fun a ha => hfr a (List.mem_cons_of_mem b ha))
      unfold nxtAt at hb
      apply bool_ext
      rw [segIs_cons_iff, segIs_cons_iff]
      constructor
      · rintro ⟨ho, p, hp, hseg⟩
        rw [hp] at hb
        simp only [Option.map_some'] at hb
        obtain ⟨p1, hg1, hnxt⟩ := Option.map_eq_some'.mp hb.symm
        refine ⟨ho, p1, hg1, ?_⟩
        rw [hnxt, ← ihl p.nxt]
        exact hseg
      · rintro ⟨ho, p, hp, hseg⟩
        rw [hp] at hb
        simp only [Option.map_some'] at hb
        obtain ⟨p2, hg2, hnxt⟩ := Option.map_eq_some'.mp hb
        refine ⟨ho, p2, hg2, ?_⟩
        rw [hnxt, ihl p.nxt]
        exact hseg

/-- Node-level effect of `deleteNxtPieceAndMove` under the spec's
precondition (`currentPiece` has a successor `x`, which itself has a
successor `y`; `tail`'s successor is the terminator). The node `x` is spliced
out from behind the cursor and re-linked behind the old tail, becoming the
new tail; nothing is freed. -/
theorem deleteNxt_spec (s : ListPiece) (c x y t : Nat) (cP xP tP : Piece)
    (hc : s.currentPiece = some c)
    (ht : s.tail = some t)
    (hcP : s.heap.get? c = some cP)
    (hxP : s.heap.get? x = some xP)
    (htP : s.heap.get? t = some tP)
    (hcx : cP.nxt = some x)
    (hxy : xP.nxt = some y)
    (htn : tP.nxt = none)
    (hne_cx : c ≠ x) :
    s.deleteNxtPieceAndMove = some { s with
      heap := hwrite (hwrite (hwrite s.heap t { tP with nxt := some x })
                      c { cP with nxt := xP.nxt })
                x { xP with nxt := none },
      tail := some x,
      lengthList := (s.lengthList + (u32 - 1)) % u32 } := by
  have htc : t ≠ c := by
    intro e
    rw [e, hcP] at htP
    have h1 := Option.some.inj htP
    rw [← h1, hcx] at htn
    exact Option.noConfusion htn
  have htx : t ≠ x := by
    intro e
    rw [e, hxP] at htP
    have h1 := Option.some.inj htP
    rw [← h1, hxy] at htn
    exact Option.noConfusion htn
  have htlt := get?_lt_length s.heap t tP htP
  have h1c : (hwrite s.heap t { tP with nxt := some x }).get? c = some cP := by
    rw [hwrite_get_ne _ _ _ _ (Ne.symm htc), hcP]
  have h1x : (hwrite s.heap t { tP with nxt := some x }).get? x = some xP := by
    rw [hwrite_get_ne _ _ _ _ (Ne.symm htx), hxP]
  have h2t : (hwrite (hwrite s.heap t { tP with nxt := some x }) c
      { cP with nxt := xP.nxt }).get? t = some { tP with nxt := some x } := by
    rw [hwrite_get_ne _ _ _ _ htc, hwrite_get_self _ _ _ htlt]
  have h2x : (hwrite (hwrite s.heap t { tP with nxt := some x }) c
      { cP with nxt := xP.nxt }).get? x = some xP := by
    rw [hwrite_get_ne _ _ _ _ (Ne.symm hne_cx), h1x]
  simp only [ListPiece.deleteNxtPieceAndMove, ht, hc, htP, hcP, hcx, h1c, h1x,
    h2t, h2x]

theorem getLast?_decomp : ∀ (l : List Nat) (a : Nat),
    l.getLast? = some a → ∃ l0, l = l0 ++ [a] := by
  intro l
  induction l with
  | nil => intro a h; exact Option.noConfusion h
  | cons b l ih =>
      intro a h
      cases l with
      | nil =>
          have hb : b = a := by simpa using h
          exact ⟨[], by simp [hb]⟩
      | cons b2 l2 =>
          rw [List.getLast?_cons_cons] at h
          obtain ⟨l0, hl0⟩ := ih a h
          exact ⟨b :: l0, by rw [List.cons_append, ← hl0]⟩

/-- Chain-level effect of `deleteNxtPieceAndMove`: if the chain from `head`
is `P ++ c :: x :: y :: Q` with the cursor at `c` and `tail` at the last
node, then the call succeeds and the new chain is
`P ++ c :: y :: (Q ++ [x])` — the node `x` is moved from behind the cursor
to the end of the chain, where it becomes the new tail. No node is freed
(the heap keeps its length) and `lengthList` is decremented (modulo 2^32). -/
theorem deleteNxt_chain (s : ListPiece) (P Q : List Nat) (c x y t : Nat)
    (hch : chainIs s.heap s.head (P ++ c :: x :: y :: Q) = true)
    (hc : s.currentPiece = some c)
    (ht : s.tail = some t)
    (hlast : (y :: Q).getLast? = some t) :
    ∃ s', s.deleteNxtPieceAndMove = some s' ∧
      chainIs s'.heap s'.head (P ++ c :: y :: (Q ++ [x])) = true ∧
      s'.tail = some x ∧
      s'.currentPiece = some c ∧
      s'.head = s.head ∧
      s'.lastActivePiece = s.lastActivePiece ∧
      s'.heap.length = s.heap.length ∧
      s'.lengthList = (s.lengthList + (u32 - 1)) % u32 ∧
      (∀ a, a ≠ c → a ≠ x → a ≠ t → s'.heap.get? a = s.heap.get? a) := by
  unfold chainIs at hch
  obtain ⟨m, hP, hrest⟩ :=
    (segIs_append s.heap P (c :: x :: y :: Q) s.head none).mp hch
  obtain ⟨hm, cP, hcP, hrest2⟩ := (segIs_cons_iff _ _ _ _ _).mp hrest
  subst hm
  obtain ⟨hcx, xP, hxP, hrest3⟩ := (segIs_cons_iff _ _ _ _ _).mp hrest2
  obtain ⟨hxy, yP, hyP, hrest4⟩ := (segIs_cons_iff _ _ _ _ _).mp hrest3
  have hyQ : segIs s.heap (y :: Q) (some y) none = true := by
    rw [← hxy]
    exact hrest3
  obtain ⟨L0, hL0⟩ := getLast?_decomp (y :: Q) t hlast
  have hyQt : segIs s.heap (L0 ++ [t]) (some y) none = true := by
    rw [← hL0]
    exact hyQ
  obtain ⟨m2, hL0seg, htseg⟩ := (segIs_append _ _ _ _ _).mp hyQt
  obtain ⟨hm2, tP, htP, htail_nil⟩ := (segIs_cons_iff _ _ _ _ _).mp htseg
  subst hm2
  rw [segIs_nil_iff] at htail_nil
  have hnd : (P ++ c :: x :: y :: Q).Nodup := chain_nodup s.heap _ s.head hch
  rw [List.nodup_append] at hnd
  obtain ⟨hndP, hndR, hdisj⟩ := hnd
  rw [List.nodup_cons] at hndR
  obtain ⟨hcnot, hndR2⟩ := hndR
  rw [List.nodup_cons] at hndR2
  obtain ⟨hxnot, hndyQ⟩ := hndR2
  have htmem : t ∈ y :: Q := by
    rw [hL0]
    exact List.mem_append_right L0 (List.mem_singleton_self t)
  have hne_cx : c ≠ x := by
    intro e
    exact hcnot (by rw [e]; exact List.mem_cons_self x (y :: Q))
  have hne_ct : c ≠ t := by
    intro e
    exact hcnot (by rw [e]; exact List.mem_cons_of_mem x htmem)
  have hne_xt : x ≠ t := by
    intro e
    exact hxnot (by rw [e]; exact htmem)
  have hclt := get?_lt_length s.heap c cP hcP
  have hxlt := get?_lt_length s.heap x xP hxP
  have htlt := get?_lt_length s.heap t tP htP
  have hdel := deleteNxt_spec s c x y t cP xP tP hc ht hcP hxP htP hcx hxy
    htail_nil hne_cx
  refine ⟨_, hdel, ?_, rfl, hc, rfl, rfl, ?_, rfl, ?_⟩
  · -- the new chain
    show chainIs
      (hwrite (hwrite (hwrite s.heap t { tP with nxt := some x })
        c { cP with nxt := xP.nxt }) x { xP with nxt := none })
      s.head (P ++ c :: y :: (Q ++ [x])) = true
    set Pt : Piece := { tP with nxt := some x } with hPt
    set Pc : Piece := { cP with nxt := xP.nxt } with hPc
    set Px : Piece := { xP with nxt := none } with hPx
    set h3 : List Piece := hwrite (hwrite (hwrite s.heap t Pt) c Pc) x Px
      with hh3
    have hOther : ∀ a, a ≠ c → a ≠ x → a ≠ t → nxtAt h3 a = nxtAt s.heap a := by
      intro a hac hax hat
      rw [hh3, nxtAt_hwrite_ne _ _ _ _ hax, nxtAt_hwrite_ne _ _ _ _ hac,
        nxtAt_hwrite_ne _ _ _ _ hat]
    have haP_nec : ∀ a ∈ P, a ≠ c := by
      intro a ha e
      apply hdisj ha
      rw [e]
      exact List.mem_cons_self c (x :: y :: Q)
    have haP_nex : ∀ a ∈ P, a ≠ x := by
      intro a ha e
      apply hdisj ha
      rw [e]
      exact List.mem_cons_of_mem c (List.mem_cons_self x (y :: Q))
    have haP_net : ∀ a ∈ P, a ≠ t := by
      intro a ha e
      apply hdisj ha
      rw [e]
      exact List.mem_cons_of_mem c (List.mem_cons_of_mem x htmem)
    have hsegP : segIs h3 P s.head (some c) = true := by
      rw [segIs_frame s.heap h3 P s.head (some c)
        (fun a ha => hOther a (haP_nec a ha) (haP_nex a ha) (haP_net a ha))]
      exact hP
    have hndL0t : (L0 ++ [t]).Nodup := by rw [← hL0]; exact hndyQ
    rw [List.nodup_append] at hndL0t
    obtain ⟨-, -, hdisjL0⟩ := hndL0t
    have haL0_mem : ∀ a ∈ L0, a ∈ y :: Q := by
      intro a ha
      rw [hL0]
      exact List.mem_append_left [t] ha
    have haL0_nec : ∀ a ∈ L0, a ≠ c := by
      intro a ha e
      apply hcnot
      apply List.mem_cons_of_mem x
      rw [← e]
      exact haL0_mem a ha
    have haL0_nex : ∀ a ∈ L0, a ≠ x := by
      intro a ha e
      apply hxnot
      rw [← e]
      exact haL0_mem a ha
    have haL0_net : ∀ a ∈ L0, a ≠ t := by
      intro a ha e
      apply hdisjL0 ha
      rw [e]
      exact List.mem_singleton_self t
    have hsegL0 : segIs h3 L0 (some y) (some t) = true := by
      rw [segIs_frame s.heap h3 L0 (some y) (some t)
        (fun a ha => hOther a (haL0_nec a ha) (haL0_nex a ha) (haL0_net a ha))]
      exact hL0seg
    have h3t : h3.get? t = some Pt := by
      rw [hh3, hwrite_get_ne _ _ _ _ (Ne.symm hne_xt),
        hwrite_get_ne _ _ _ _ (Ne.symm hne_ct)]
      exact hwrite_get_self _ _ _ htlt
    have hsegT : segIs h3 [t] (some t) (some x) = true := by
      apply (segIs_cons_iff _ _ _ _ _).mpr
      exact ⟨rfl, Pt, h3t, (segIs_nil_iff _ _ _).mpr rfl⟩
    have hsegYQ2 : segIs h3 (L0 ++ [t]) (some y) (some x) = true :=
      (segIs_append _ _ _ _ _).mpr ⟨some t, hsegL0, hsegT⟩
    have h3x : h3.get? x = some Px := by
      rw [hh3]
      apply hwrite_get_self
      rw [hwrite_length, hwrite_length]
      exact hxlt
    have hsegX : segIs h3 [x] (some x) none = true := by
      apply (segIs_cons_iff _ _ _ _ _).mpr
      exact ⟨rfl, Px, h3x, (segIs_nil_iff _ _ _).mpr rfl⟩
    have hsegTail : segIs h3 ((y :: Q) ++ [x]) (some y) none = true := by
      rw [hL0]
      exact (segIs_append _ _ _ _ _).mpr ⟨some x, hsegYQ2, hsegX⟩
    have h3c : h3.get? c = some Pc := by
      rw [hh3, hwrite_get_ne _ _ _ _ hne_cx]
      apply hwrite_get_self
      rw [hwrite_length]
      exact hclt
    have hsegC : segIs h3 (c :: y :: (Q ++ [x])) (some c) none = true := by
      apply (segIs_cons_iff _ _ _ _ _).mpr
      refine ⟨rfl, Pc, h3c, ?_⟩
      rw [hPc]
      show segIs h3 (y :: (Q ++ [x])) xP.nxt none = true
      rw [hxy]
      have hy : y :: (Q ++ [x]) = (y :: Q) ++ [x] := by rw [List.cons_append]
      rw [hy]
      exact hsegTail
    unfold chainIs
    exact (segIs_append _ _ _ _ _).mpr ⟨some c, hsegP, hsegC⟩
  · show (hwrite (hwrite (hwrite s.heap t { tP with nxt := some x })
      c { cP with nxt := xP.nxt }) x { xP with nxt := none }).length
      = s.heap.length
    rw [hwrite_length, hwrite_length, hwrite_length]
  · intro a hac hax hat
    show (hwrite (hwrite (hwrite s.heap t { tP with nxt := some x })
      c { cP with nxt := xP.nxt }) x { xP with nxt := none }).get? a
      = s.heap.get? a
    rw [hwrite_get_ne _ _ _ _ hax, hwrite_get_ne _ _ _ _ hac,
      hwrite_get_ne _ _ _ _ hat]

theorem hwrite_append_self (h : List Piece) (v w : Piece) :
    hwrite (h ++ [v]) h.length w = h ++ [w] := by
  induction h with
  | nil => rfl
  | cons p tl ih => simp [hwrite, ih]

/-- Node-level effect of `addPiece` when `lastActivePiece` has no successor
(the first branch): the new node becomes the tail with a null link, is
linked after `lastActivePiece`, `lastActivePiece` advances to it, and the
counter is incremented (modulo 2^32). -/
theorem addPiece_spec (s : ListPiece) (l : Nat) (lapP : Piece) (v : Piece)
    (hlap : s.lastActivePiece = some l)
    (hlapP : s.heap.get? l = some lapP)
    (hn : lapP.nxt = none) :
    s.addPiece v = some { s with
      heap := hwrite (hwrite (s.heap ++ [v]) s.heap.length
                { v with nxt := none }) l { lapP with nxt := some s.heap.length },
      tail := some s.heap.length,
      lastActivePiece := some s.heap.length,
      lengthList := (s.lengthList + 1) % u32 } := by
  simp only [ListPiece.addPiece, hlap, hlapP, hn]

/-- Chain-level effect of `addPiece` in the first branch: appending to a
well-formed chain whose last node is `lastActivePiece` extends the chain by
the fresh node. -/
theorem addPiece_chain (s : ListPiece) (F : List Nat) (t0 : Nat) (v : Piece)
    (hch : chainIs s.heap s.head F = true)
    (hlap : s.lastActivePiece = some t0)
    (hlast : F.getLast? = some t0) :
    ∃ s', s.addPiece v = some s' ∧
      chainIs s'.heap s'.head (F ++ [s.heap.length]) = true ∧
      s'.tail = some s.heap.length ∧
      s'.lastActivePiece = some s.heap.length ∧
      s'.head = s.head ∧
      s'.currentPiece = s.currentPiece ∧
      s'.heap.length = s.heap.length + 1 ∧
      s'.lengthList = (s.lengthList + 1) % u32 := by
  unfold chainIs at hch
  obtain ⟨L0, hL0⟩ := getLast?_decomp F t0 hlast
  have hchF : segIs s.heap (L0 ++ [t0]) s.head none = true := by
    rw [← hL0]
    exact hch
  obtain ⟨m, hL0seg, htseg⟩ := (segIs_append _ _ _ _ _).mp hchF
  obtain ⟨hm, lapP, hlapP, hnil⟩ := (segIs_cons_iff _ _ _ _ _).mp htseg
  subst hm
  rw [segIs_nil_iff] at hnil
  have htlt := get?_lt_length s.heap t0 lapP hlapP
  have hnd : (L0 ++ [t0]).Nodup := by
    rw [← hL0]
    exact chain_nodup s.heap F s.head hch
  rw [List.nodup_append] at hnd
  obtain ⟨-, -, hdisjL0⟩ := hnd
  have hspec := addPiece_spec s t0 lapP v hlap hlapP hnil
  rw [hwrite_append_self] at hspec
  refine ⟨_, hspec, ?_, rfl, rfl, rfl, rfl, ?_, rfl⟩
  · -- the extended chain
    show chainIs (hwrite (s.heap ++ [{ v with nxt := none }]) t0
      { lapP with nxt := some s.heap.length }) s.head
      (F ++ [s.heap.length]) = true
    set a : Nat := s.heap.length with ha
    set hA : List Piece := s.heap ++ [{ v with nxt := none }] with hhA
    set h2 : List Piece := hwrite hA t0 { lapP with nxt := some a } with hh2
    have hmemlt : ∀ b ∈ L0, b < s.heap.length := by
      intro b hb
      obtain ⟨q, hq⟩ := chain_alloc s.heap (L0 ++ [t0]) s.head none hchF b
        (List.mem_append_left [t0] hb)
      exact get?_lt_length s.heap b q hq
    have hfrL0 : ∀ b ∈ L0, nxtAt h2 b = nxtAt s.heap b := by
      intro b hb
      have hbt : b ≠ t0 := fun e =>
        hdisjL0 hb (by rw [e]; exact List.mem_singleton_self t0)
      rw [hh2, nxtAt_hwrite_ne _ _ _ _ hbt, hhA]
      unfold nxtAt
      rw [List.get?_append (hmemlt b hb)]
    have hsegL0 : segIs h2 L0 s.head (some t0) = true := by
      rw [segIs_frame s.heap h2 L0 s.head (some t0) hfrL0]
      exact hL0seg
    have h2t : h2.get? t0 = some { lapP with nxt := some a } := by
      rw [hh2]
      apply hwrite_get_self
      rw [hhA, List.length_append]
      omega
    have hta : t0 ≠ a := by omega
    have h2a : h2.get? a = some { v with nxt := none } := by
      rw [hh2, hwrite_get_ne _ _ _ _ (Ne.symm hta), hhA, ha]
      exact List.get?_concat_length s.heap { v with nxt := none }
    have hsegT : segIs h2 [t0] (some t0) (some a) = true := by
      apply (segIs_cons_iff _ _ _ _ _).mpr
      exact ⟨rfl, { lapP with nxt := some a }, h2t, (segIs_nil_iff _ _ _).mpr rfl⟩
    have hsegA : segIs h2 [a] (some a) none = true := by
      apply (segIs_cons_iff _ _ _ _ _).mpr
      exact ⟨rfl, { v with nxt := none }, h2a, (segIs_nil_iff _ _ _).mpr rfl⟩
    unfold chainIs
    rw [hL0]
    have hassoc : (L0 ++ [t0]) ++ [a] = L0 ++ ([t0] ++ [a]) := by
      rw [List.append_assoc]
    rw [hassoc]
    apply (segIs_append _ _ _ _ _).mpr
    refine ⟨some t0, hsegL0, ?_⟩
    apply (segIs_append _ _ _ _ _).mpr
    exact ⟨some a, hsegT, hsegA⟩
  · show (hwrite (s.heap ++ [{ v with nxt := none }]) t0
      { lapP with nxt := some s.heap.length }).length = s.heap.length + 1
    rw [hwrite_length, List.length_append]
    rfl

/-- Running the broadcast loop along a well-formed chain: every node of the
chain is visited exactly once, in chain order; each visited node receives
one `pieceAddPointAndPenalty` update; all other nodes are untouched; the
cursor ends at the terminator. -/
theorem broadcastLoop_run (pt : Nat) : ∀ (l : List Nat) (s : ListPiece)
    (fuel : Nat),
    segIs s.heap l s.currentPiece none = true →
    l.Nodup →
    l.length < fuel →
    ∃ hp, broadcastLoop pt fuel s =
        some ({ s with heap := hp, currentPiece := none }, l) ∧
      hp.length = s.heap.length ∧
      (∀ a p, a ∈ l → s.heap.get? a = some p →
        hp.get? a = some (pieceAddPointAndPenalty p pt)) ∧
      (∀ a, a ∉ l → hp.get? a = s.heap.get? a) := by
  intro l
  induction l with
  | nil =>
      intro s fuel hseg hnd hfl
      rw [segIs_nil_iff] at hseg
      cases fuel with
      | zero => omega
      | succ f =>
          refine ⟨s.heap, ?_, rfl, ?_, fun a _ => rfl⟩
          · have hs : ({ s with heap := s.heap, currentPiece := none } :
                ListPiece) = s := by
              rw [← hseg]
            simp only [broadcastLoop, hseg, hs]
          · intro a p ha hq
            simp at ha
  | cons c l ih =>
      intro s fuel hseg hnd hfl
      obtain ⟨ho, p, hp, hrest⟩ := (segIs_cons_iff _ _ _ _ _).mp hseg
      cases fuel with
      | zero => simp at hfl
      | succ f =>
          have hclt := get?_lt_length s.heap c p hp
          rw [List.nodup_cons] at hnd
          obtain ⟨hcl, hndl⟩ := hnd
          have hseg1 : segIs (hwrite s.heap c (pieceAddPointAndPenalty p pt))
              l p.nxt none = true := by
            rw [segIs_frame s.heap _ l p.nxt none ?_]
            · exact hrest
            · intro a ha
              have hac : a ≠ c := fun e => hcl (e ▸ ha)
              exact nxtAt_hwrite_ne _ _ _ _ hac
          have hfl2 : l.length < f := by
            simp only [List.length_cons] at hfl
            omega
          have hrec := ih
            { s with
                heap := hwrite s.heap c (pieceAddPointAndPenalty p pt),
                currentPiece := p.nxt }
            f hseg1 hndl hfl2
          obtain ⟨hp2, hrun, hlen, hupd, hfr⟩ := hrec
          refine ⟨hp2, ?_, ?_, ?_, ?_⟩
          · simp only [broadcastLoop, ho, hp]
            rw [hrun]
          · rw [hlen, hwrite_length]
          · intro a q ha hq
            rcases List.mem_cons.mp ha with rfl | hmem
            · have hqp : q = p := by
                rw [hp] at hq
                exact (Option.some.inj hq).symm
              subst hqp
              rw [hfr a hcl, hwrite_get_self _ _ _ hclt]
            · have hac : a ≠ c := fun e => hcl (e ▸ hmem)
              have hq1 : (hwrite s.heap c
                  (pieceAddPointAndPenalty p pt)).get? a = some q := by
                rw [hwrite_get_ne _ _ _ _ hac]
                exact hq
              exact hupd a q hmem hq1
          · intro a ha
            have hac : a ≠ c := by
              intro e
              apply ha
              rw [e]
              exact List.mem_cons_self c l
            have hal : a ∉ l := fun hm => ha (List.mem_cons_of_mem c hm)
            rw [hfr a hal, hwrite_get_ne _ _ _ _ hac]

/-- Running `ListPiece::addPointAndPenalty` on a state whose chain from
`head` is `hd :: l`: the node-level accumulator is invoked once per chain
node, sentinel included, in chain order, and the cursor ends at null. -/
theorem addPointAndPenalty_run (s : ListPiece) (pt : Nat) (hd : Nat)
    (l : List Nat) (hch : chainIs s.heap s.head (hd :: l) = true) :
    ∃ hp, s.addPointAndPenalty pt =
        some ({ s with heap := hp, currentPiece := none }, hd :: l) ∧
      (hd :: l).Nodup ∧
      hp.length = s.heap.length ∧
      (∀ a p, a ∈ hd :: l → s.heap.get? a = some p →
        hp.get? a = some (pieceAddPointAndPenalty p pt)) ∧
      (∀ a, a ∉ hd :: l → hp.get? a = s.heap.get? a) := by
  unfold chainIs at hch
  have hnd := chain_nodup s.heap (hd :: l) s.head hch
  have hlen := chain_length_le s.heap (hd :: l) s.head hch
  have hseg0 : segIs ({ s with currentPiece := s.head } : ListPiece).heap
      (hd :: l) ({ s with currentPiece := s.head } : ListPiece).currentPiece
      none = true := hch
  have hlt : (hd :: l).length < s.heap.length + 1 := by omega
  obtain ⟨hp, hrun, hl, hupd, hfr⟩ := broadcastLoop_run pt (hd :: l)
    { s with currentPiece := s.head } (s.heap.length + 1) hseg0 hnd hlt
  refine ⟨hp, ?_, hnd, hl, hupd, hfr⟩
  unfold ListPiece.addPointAndPenalty
  exact hrun

/-- The `tail` field points at an allocated node whose successor is the
terminator. -/
def tailOk (s : ListPiece) : Prop :=
  ∃ t q, s.tail = some t ∧ s.heap.get? t = some q ∧ q.nxt = none

/-- The `lastActivePiece` field points at an allocated node. -/
def lapOk (s : ListPiece) : Prop :=
  ∃ l q, s.lastActivePiece = some l ∧ s.heap.get? l = some q

theorem get?_isSome_of_lt : ∀ (h : List Piece) (n : Nat),
    n < h.length → ∃ q, h.get? n = some q := by
  intro h
  induction h with
  | nil => intro n hn; simp at hn
  | cons p t ih =>
      intro n hn
      cases n with
      | zero => exact ⟨p, rfl⟩
      | succ m =>
          simp only [List.length_cons, Nat.succ_lt_succ_iff] at hn
          simpa using ih m hn

theorem nxtAt_write_log (h : List Piece) (c : Nat) (p : Piece) (pt : Nat)
    (hp : h.get? c = some p) :
    ∀ a, nxtAt (hwrite h c (pieceAddPointAndPenalty p pt)) a = nxtAt h a := by
  intro a
  by_cases hac : a = c
  · subst hac
    rw [nxtAt_hwrite_self h a _ (get?_lt_length h a p hp)]
    unfold nxtAt
    rw [hp]
    rfl
  · exact nxtAt_hwrite_ne _ _ _ _ hac

/-- Both branches of `addPiece` preserve `tailOk` and re-establish `lapOk`,
and increment the counter. -/
theorem addPiece_ok (s : ListPiece) (v : Piece) (s' : ListPiece)
    (h : s.addPiece v = some s') (hts : tailOk s) :
    tailOk s' ∧ lapOk s' ∧ s'.lengthList = (s.lengthList + 1) % u32 := by
  unfold ListPiece.addPiece at h
  cases hlap : s.lastActivePiece with
  | none =>
      simp only [hlap] at h
      exact Option.noConfusion h
  | some lap =>
      simp only [hlap] at h
      cases hlapP : s.heap.get? lap with
      | none =>
          simp only [hlapP] at h
          exact Option.noConfusion h
      | some lapP =>
          simp only [hlapP] at h
          have hlaplt := get?_lt_length s.heap lap lapP hlapP
          cases hn : lapP.nxt with
          | none =>
              simp only [hn] at h
              have he := Option.some.inj h
              subst he
              have hga : (hwrite (hwrite (s.heap ++ [v]) s.heap.length
                  { v with nxt := none }) lap
                  { lapP with nxt := some s.heap.length }).get? s.heap.length
                  = some { v with nxt := none } := by
                rw [hwrite_get_ne _ _ _ _ (by omega : s.heap.length ≠ lap)]
                apply hwrite_get_self
                rw [List.length_append]
                simp
              refine ⟨⟨s.heap.length, { v with nxt := none }, rfl, hga, rfl⟩,
                ⟨s.heap.length, { v with nxt := none }, rfl, hga⟩, rfl⟩
          | some nx =>
              simp only [hn] at h
              have he := Option.some.inj h
              subst he
              obtain ⟨t, q, hts1, hts2, hts3⟩ := hts
              have htlt := get?_lt_length s.heap t q hts2
              refine ⟨⟨t, q, hts1, ?_, hts3⟩,
                ⟨s.heap.length, v, rfl, ?_⟩, rfl⟩
              · rw [List.get?_append htlt]
                exact hts2
              · exact List.get?_concat_length s.heap v

theorem move_frame (s s' : ListPiece) (h : s.move = some s') :
    s'.heap = s.heap ∧ s'.tail = s.tail ∧
    s'.lastActivePiece = s.lastActivePiece ∧ s'.lengthList = s.lengthList := by
  unfold ListPiece.move at h
  cases hc : s.currentPiece with
  | none =>
      simp only [hc] at h
      exact Option.noConfusion h
  | some c =>
      simp only [hc] at h
      cases hp : s.heap.get? c with
      | none =>
          simp only [hp] at h
          exact Option.noConfusion h
      | some p =>
          simp only [hp] at h
          have he := Option.some.inj h
          subst he
          exact ⟨rfl, rfl, rfl, rfl⟩

/-- Whenever `deleteNxtPieceAndMove` completes (no null/invalid dereference),
the new `tail` is an allocated node with a null successor, and `head`,
`currentPiece`, `lastActivePiece` and the heap size are unchanged. -/
theorem deleteNxt_ok (s s' : ListPiece)
    (h : s.deleteNxtPieceAndMove = some s') :
    tailOk s' ∧ s'.lastActivePiece = s.lastActivePiece ∧
    s'.head = s.head ∧ s'.currentPiece = s.currentPiece ∧
    s'.heap.length = s.heap.length ∧
    s'.lengthList = (s.lengthList + (u32 - 1)) % u32 := by
  unfold ListPiece.deleteNxtPieceAndMove at h
  cases ht : s.tail with
  | none =>
      simp only [ht] at h
      exact Option.noConfusion h
  | some t =>
      simp only [ht] at h
      cases hc : s.currentPiece with
      | none =>
          simp only [hc] at h
          exact Option.noConfusion h
      | some c =>
          simp only [hc] at h
          cases htP : s.heap.get? t with
          | none =>
              simp only [htP] at h
              exact Option.noConfusion h
          | some tP =>
              simp only [htP] at h
              cases hcP : s.heap.get? c with
              | none =>
                  simp only [hcP] at h
                  exact Option.noConfusion h
              | some cP =>
                  simp only [hcP] at h
                  cases hc1 : (hwrite s.heap t { tP with nxt := cP.nxt }).get? c with
                  | none =>
                      simp only [hc1] at h
                      exact Option.noConfusion h
                  | some cP1 =>
                      simp only [hc1] at h
                      cases hx : cP1.nxt with
                      | none =>
                          simp only [hx] at h
                          exact Option.noConfusion h
                      | some x =>
                          simp only [hx] at h
                          cases hxP : (hwrite s.heap t { tP with nxt := cP.nxt }).get? x with
                          | none =>
                              simp only [hxP] at h
                              exact Option.noConfusion h
                          | some xP =>
                              simp only [hxP] at h
                              cases ht2P : (hwrite (hwrite s.heap t { tP with nxt := cP.nxt }) c { cP1 with nxt := xP.nxt }).get? t with
                              | none =>
                                  simp only [ht2P] at h
                                  exact Option.noConfusion h
                              | some tP2 =>
                                  simp only [ht2P] at h
                                  cases ht2 : tP2.nxt with
                                  | none =>
                                      simp only [ht2] at h
                                      exact Option.noConfusion h
                                  | some t2 =>
                                      simp only [ht2] at h
                                      cases ht3 : (hwrite (hwrite s.heap t { tP with nxt := cP.nxt }) c { cP1 with nxt := xP.nxt }).get? t2 with
                                      | none =>
                                          simp only [ht3] at h
                                          exact Option.noConfusion h
                                      | some tP3 =>
                                          simp only [ht3] at h
                                          have he := Option.some.inj h
                                          subst he
                                          refine ⟨⟨t2, { tP3 with nxt := none },
                                            rfl, ?_, rfl⟩, rfl, rfl, rfl, ?_, rfl⟩
                                          · exact hwrite_get_self _ _ _
                                              (get?_lt_length _ _ _ ht3)
                                          · rw [hwrite_length, hwrite_length,
                                              hwrite_length]

theorem broadcastLoop_frame (pt : Nat) : ∀ (fuel : Nat) (s s1 : ListPiece)
    (vs : List Nat), broadcastLoop pt fuel s = some (s1, vs) →
    s1.head = s.head ∧ s1.tail = s.tail ∧
    s1.lastActivePiece = s.lastActivePiece ∧ s1.lengthList = s.lengthList ∧
    s1.heap.length = s.heap.length ∧
    (∀ a, nxtAt s1.heap a = nxtAt s.heap a) := by
  intro fuel
  induction fuel with
  | zero =>
      intro s s1 vs h
      exact Option.noConfusion h
  | succ f ih =>
      intro s s1 vs h
      cases hcur : s.currentPiece with
      | none =>
          simp only [broadcastLoop, hcur] at h
          have he := Option.some.inj h
          have hs1 : s1 = s := (congrArg Prod.fst he).symm
          subst hs1
          exact ⟨rfl, rfl, rfl, rfl, rfl, fun a => rfl⟩
      | some c =>
          simp only [broadcastLoop, hcur] at h
          cases hp : s.heap.get? c with
          | none =>
              simp only [hp] at h
              exact Option.noConfusion h
          | some p =>
              simp only [hp] at h
              cases hrec : broadcastLoop pt f { s with heap := hwrite s.heap c (pieceAddPointAndPenalty p pt), currentPiece := p.nxt } with
              | none =>
                  simp only [hrec] at h
                  exact Option.noConfusion h
              | some pr =>
                  simp only [hrec] at h
                  obtain ⟨s2, vs2⟩ := pr
                  have he := Option.some.inj h
                  have hs2 : s2 = s1 := congrArg Prod.fst he
                  subst hs2
                  obtain ⟨m1, m2, m3, m4, m5, m6⟩ := ih _ _ _ hrec
                  refine ⟨m1, m2, m3, m4, ?_, ?_⟩
                  · exact m5.trans (hwrite_length _ _ _)
                  · intro a
                    exact (m6 a).trans (nxtAt_write_log s.heap c p pt hp a)

theorem addPointAndPenalty_frame (s s1 : ListPiece) (pt : Nat)
    (vs : List Nat) (h : s.addPointAndPenalty pt = some (s1, vs)) :
    s1.head = s.head ∧ s1.tail = s.tail ∧
    s1.lastActivePiece = s.lastActivePiece ∧ s1.lengthList = s.lengthList ∧
    s1.heap.length = s.heap.length ∧
    (∀ a, nxtAt s1.heap a = nxtAt s.heap a) := by
  unfold ListPiece.addPointAndPenalty at h
  exact broadcastLoop_frame pt (s.heap.length + 1)
    { s with currentPiece := s.head } s1 vs h

/-- The states reachable from construction by the public operations (each
step is required to complete, i.e. it respects its precondition of not
dereferencing null/invalid pointers). -/
inductive Reachable : ListPiece → Prop where
  | start : Reachable ListPiece.mkEmpty
  | add (s s' : ListPiece) (v : Piece) : Reachable s →
      s.addPiece v = some s' → Reachable s'
  | mv (s s' : ListPiece) : Reachable s → s.move = some s' → Reachable s'
  | reset (s : ListPiece) : Reachable s → Reachable s.initCurrentPiece
  | del (s s' : ListPiece) : Reachable s →
      s.deleteNxtPieceAndMove = some s' → Reachable s'
  | bcast (s s' : ListPiece) (pt : Nat) (vs : List Nat) : Reachable s →
      s.addPointAndPenalty pt = some (s', vs) → Reachable s'
  | econ (s : ListPiece) (e : Nat) (lbl : Int) (b : Nat) : Reachable s →
      Reachable (s.edgeConstraintLP e lbl b).1

theorem reachable_inv (s : ListPiece) (h : Reachable s) :
    tailOk s ∧ lapOk s := by
  induction h with
  | start =>
      exact ⟨⟨0, { nxt := none, log := [] }, rfl, rfl, rfl⟩,
        0, { nxt := none, log := [] }, rfl, rfl⟩
  | add s0 s' v hr heq ih =>
      obtain ⟨h1, h2, -⟩ := addPiece_ok s0 v s' heq ih.1
      exact ⟨h1, h2⟩
  | mv s0 s' hr heq ih =>
      obtain ⟨hh, ht, hl, -⟩ := move_frame s0 s' heq
      obtain ⟨⟨t, q, a1, a2, a3⟩, ⟨l0, q0, b1, b2⟩⟩ := ih
      refine ⟨⟨t, q, ?_, ?_, a3⟩, l0, q0, ?_, ?_⟩
      · rw [ht]; exact a1
      · rw [hh]; exact a2
      · rw [hl]; exact b1
      · rw [hh]; exact b2
  | reset s0 hr ih => exact ih
  | del s0 s' hr heq ih =>
      obtain ⟨h1, hlap, -, -, hlen, -⟩ := deleteNxt_ok s0 s' heq
      obtain ⟨-, ⟨l0, q0, b1, b2⟩⟩ := ih
      obtain ⟨q1, hq1⟩ := get?_isSome_of_lt s'.heap l0
        (by rw [hlen]; exact get?_lt_length _ _ _ b2)
      refine ⟨h1, l0, q1, ?_, hq1⟩
      rw [hlap]; exact b1
  | bcast s0 s' pt vs hr heq ih =>
      obtain ⟨-, ht, hl, -, hlen, hnxt⟩ :=
        addPointAndPenalty_frame s0 s' pt vs heq
      obtain ⟨⟨t, q, a1, a2, a3⟩, ⟨l0, q0, b1, b2⟩⟩ := ih
      have hta : nxtAt s'.heap t = some none := by
        rw [hnxt t]
        unfold nxtAt
        rw [a2]
        simp [a3]
      obtain ⟨q1, hq1, hq1n⟩ := Option.map_eq_some'.mp hta
      have hlb : nxtAt s'.heap l0 = some q0.nxt := by
        rw [hnxt l0]
        unfold nxtAt
        rw [b2]
        rfl
      obtain ⟨q2, hq2, -⟩ := Option.map_eq_some'.mp hlb
      refine ⟨⟨t, q1, ?_, hq1, hq1n⟩, l0, q2, ?_, hq2⟩
      · rw [ht]; exact a1
      · rw [hl]; exact b1
  | econ s0 e lbl b hr ih => exact ih

/-- Concrete payload nodes used in the concrete scenarios (A, B, C of the
spec; the logs distinguish them for the reader, identity is by address). -/
def pieceA : Piece := { nxt := none, log := [1] }

def pieceB : Piece := { nxt := none, log := [2] }

def pieceC : Piece := { nxt := none, log := [3] }

/-- The state reached from a fresh list by appending A, B, C in order
(addresses 1, 2, 3; address 0 is the sentinel). -/
def sABC : Option ListPiece :=
  (ListPiece.mkEmpty.addPiece pieceA).bind
    (fun s => (s.addPiece pieceB).bind (fun s2 => s2.addPiece pieceC))

/-- `sABC` followed by one `deleteNxtPieceAndMove` with the cursor at the
sentinel. -/
def sDel : Option ListPiece := sABC.bind ListPiece.deleteNxtPieceAndMove

/-- The literal value of `sABC` (checked below), used to instantiate the
general theorems. -/
def sABClit : ListPiece :=
  { heap := [{ nxt := some 1, log := [] }, { nxt := some 2, log := [1] },
      { nxt := some 3, log := [2] }, { nxt := none, log := [3] }]
  , head := some 0
  , tail := some 3
  , lastActivePiece := some 3
  , currentPiece := some 0
  , lengthList := 3 }

theorem sABC_eq : sABC = some sABClit := by decide

theorem addPiece_inc (s : ListPiece) (v : Piece) (s' : ListPiece)
    (h : s.addPiece v = some s') :
    s'.lengthList = (s.lengthList + 1) % u32 := by
  unfold ListPiece.addPiece at h
  cases hlap : s.lastActivePiece with
  | none =>
      simp only [hlap] at h
      exact Option.noConfusion h
  | some lap =>
      simp only [hlap] at h
      cases hlapP : s.heap.get? lap with
      | none =>
          simp only [hlapP] at h
          exact Option.noConfusion h
      | some lapP =>
          simp only [hlapP] at h
          cases hn : lapP.nxt with
          | none =>
              simp only [hn] at h
              have he := Option.some.inj h
              subst he
              rfl
          | some nx =>
              simp only [hn] at h
              have he := Option.some.inj h
              subst he
              rfl

/-- C9: a freshly constructed `ListPiece` has `getLength() = 0`, a sentinel
`head` at address 0 with a null successor (the heap holds exactly that one
node, so construction has no other side effect), `tail`, `lastActivePiece`
and `currentPiece` all equal to the sentinel, and one advance from the
(reset) sentinel cursor immediately yields the end-of-chain cursor. -/
theorem claim_C9 :
    ListPiece.mkEmpty.getLength = 0 ∧
    ListPiece.mkEmpty.head = some 0 ∧
    ListPiece.mkEmpty.heap = [{ nxt := none, log := [] }] ∧
    ListPiece.mkEmpty.tail = some 0 ∧
    ListPiece.mkEmpty.lastActivePiece = some 0 ∧
    ListPiece.mkEmpty.currentPiece = some 0 ∧
    chainIs ListPiece.mkEmpty.heap ListPiece.mkEmpty.head [0] = true ∧
    ListPiece.mkEmpty.initCurrentPiece.move =
      some { ListPiece.mkEmpty with currentPiece := none } := by
  decide

/-- C7: when `lastActivePiece` has no successor, `addPiece newP` makes the
fresh node the new tail with a null successor, links it after
`lastActivePiece`, advances `lastActivePiece` to it, and increments
`lengthList` (as an `unsigned int`, i.e. modulo 2^32); moreover the
increment happens on every successful `addPiece` call, in both branches. -/
theorem claim_C7 :
    (∀ (s : ListPiece) (l : Nat) (lapP : Piece) (v : Piece),
      s.lastActivePiece = some l →
      s.heap.get? l = some lapP →
      lapP.nxt = none →
      ∃ s', s.addPiece v = some s' ∧
        s'.tail = some s.heap.length ∧
        s'.heap.get? s.heap.length = some { v with nxt := none } ∧
        s'.heap.get? l = some { lapP with nxt := some s.heap.length } ∧
        s'.lastActivePiece = some s.heap.length ∧
        s'.lengthList = (s.lengthList + 1) % u32) ∧
    (∀ (s : ListPiece) (v : Piece) (s' : ListPiece),
      s.addPiece v = some s' → s'.lengthList = (s.lengthList + 1) % u32) := by
  constructor
  · intro s l lapP v hlap hlapP hn
    have hspec := addPiece_spec s l lapP v hlap hlapP hn
    rw [hwrite_append_self] at hspec
    have hllt := get?_lt_length s.heap l lapP hlapP
    refine ⟨_, hspec, rfl, ?_, ?_, rfl, rfl⟩
    · show (hwrite (s.heap ++ [{ v with nxt := none }]) l
        { lapP with nxt := some s.heap.length }).get? s.heap.length =
        some { v with nxt := none }
      rw [hwrite_get_ne _ _ _ _ (by omega : s.heap.length ≠ l)]
      exact List.get?_concat_length s.heap { v with nxt := none }
    · show (hwrite (s.heap ++ [{ v with nxt := none }]) l
        { lapP with nxt := some s.heap.length }).get? l =
        some { lapP with nxt := some s.heap.length }
      apply hwrite_get_self
      rw [List.length_append]
      omega
  · intro s v s' h
    exact addPiece_inc s v s' h

theorem claim_C7_witness :
    ∃ s', ListPiece.mkEmpty.addPiece pieceA = some s' ∧
      s'.tail = some ListPiece.mkEmpty.heap.length ∧
      s'.heap.get? ListPiece.mkEmpty.heap.length =
        some { pieceA with nxt := none } ∧
      s'.heap.get? 0 = some { Piece.mk none [] with
        nxt := some ListPiece.mkEmpty.heap.length } ∧
      s'.lastActivePiece = some ListPiece.mkEmpty.heap.length ∧
      s'.lengthList = (ListPiece.mkEmpty.lengthList + 1) % u32 :=
  claim_C7.1 ListPiece.mkEmpty 0 (Piece.mk none []) pieceA rfl rfl rfl

/-- C8: `initializeCurrentPiece` always sets `currentPiece` to `head` (the
sentinel, not the first real piece), and `move` sets `currentPiece` to its
successor, so that a `move` at a node with no successor leaves
`currentPiece` null. -/
theorem claim_C8 :
    (∀ s : ListPiece, s.initCurrentPiece =
      { s with currentPiece := s.head }) ∧
    (∀ (s : ListPiece) (c : Nat) (p : Piece),
      s.currentPiece = some c → s.heap.get? c = some p →
      s.move = some { s with currentPiece := p.nxt }) ∧
    (∀ (s : ListPiece) (c : Nat) (p : Piece),
      s.currentPiece = some c → s.heap.get? c = some p → p.nxt = none →
      s.move = some { s with currentPiece := none }) := by
  refine ⟨fun s => rfl, ?_, ?_⟩
  · intro s c p hc hp
    simp only [ListPiece.move, hc, hp]
  · intro s c p hc hp hn
    simp only [ListPiece.move, hc, hp, hn]

theorem claim_C8_witness :
    ListPiece.mkEmpty.move =
      some { ListPiece.mkEmpty with currentPiece := none } :=
  claim_C8.2.2 ListPiece.mkEmpty 0 (Piece.mk none []) rfl rfl rfl

/-- C6: in every state reachable from construction by the public operations
(each completing, i.e. respecting its precondition), the `tail` field points
at an allocated node whose successor link is the terminator: construction
establishes it, and `addPiece`, `move`, `initializeCurrentPiece`,
`deleteNxtPieceAndMove` (and the broadcast and constraint operations)
preserve it. -/
theorem claim_C6 (s : ListPiece) (h : Reachable s) : tailOk s :=
  (reachable_inv s h).1

theorem claim_C6_witness :
    tailOk { heap := [{ nxt := some 1, log := [] }, { nxt := none, log := [1] }]
           , head := some 0, tail := some 1, lastActivePiece := some 1
           , currentPiece := some 0, lengthList := 1 } :=
  claim_C6 _ (Reachable.add ListPiece.mkEmpty _ pieceA Reachable.start
    (by decide))

/-- C4, counterexample to the claim as stated: the body of
`edgeConstraintLP` is empty, so the call falls off the end of a
value-returning function: no `ListPiece` value is produced (the returned
component is `none`), hence it does not return a well-formed (possibly
empty) `PieceList`. The receiver is indeed left unchanged. -/
theorem claim_C4_cex :
    ListPiece.mkEmpty.edgeConstraintLP 0 0 0 = (ListPiece.mkEmpty, none) :=
  rfl

/-- C4, amended: `edgeConstraintLP` does not mutate the receiver in any way
(in particular a full traversal of the receiver before and after the call
yields identical sequences), but it does not return a well-formed
`PieceList`: its body is empty and no return value is constructed. -/
theorem claim_C4 (s : ListPiece) (e : Nat) (lbl : Int) (b : Nat) :
    (s.edgeConstraintLP e lbl b).1 = s ∧
    (∀ l : List Nat, chainIs (s.edgeConstraintLP e lbl b).1.heap
      (s.edgeConstraintLP e lbl b).1.head l = chainIs s.heap s.head l) ∧
    (s.edgeConstraintLP e lbl b).2 = none :=
  ⟨rfl, fun _ => rfl, rfl⟩

/-- C1, counterexample to the claim as stated: append A, B, C (addresses
1, 2, 3; sentinel 0) and call `deleteNxtPieceAndMove` with the cursor at
the sentinel. The removed node X (= A, address 1) is STILL reachable from
head — the chain is 0 → 2 → 3 → 1 — the new `tail` is X itself (`some 1`),
not the node following X (address 2), and nothing is freed: the heap still
holds all 4 nodes. Only `lengthList` is decremented to 2. -/
theorem claim_C1_cex :
    sDel.map (fun s => (chainIs s.heap s.head [0, 2, 3, 1], s.tail,
      s.heap.length, s.lengthList)) = some (true, some 1, 4, 2) := by
  decide

/-- C1, amended: under the stated precondition, `deleteNxtPieceAndMove`
unlinks the node `x` after `currentPiece` from its position (the cursor's
successor becomes `x`'s old successor `y`) but splices `x` to the end of
the chain: `x` remains reachable from head as the new `tail` (whose
successor is the terminator), the heap keeps all its nodes (nothing is
freed), and `lengthList` is decremented (as an `unsigned int`). -/
theorem claim_C1 (s : ListPiece) (P Q : List Nat) (c x y t : Nat)
    (hch : chainIs s.heap s.head (P ++ c :: x :: y :: Q) = true)
    (hc : s.currentPiece = some c)
    (ht : s.tail = some t)
    (hlast : (y :: Q).getLast? = some t) :
    ∃ s', s.deleteNxtPieceAndMove = some s' ∧
      chainIs s'.heap s'.head (P ++ c :: y :: (Q ++ [x])) = true ∧
      s'.tail = some x ∧
      s'.heap.length = s.heap.length ∧
      s'.lengthList = (s.lengthList + (u32 - 1)) % u32 := by
  obtain ⟨s', h1, h2, h3, -, -, -, h7, h8, -⟩ :=
    deleteNxt_chain s P Q c x y t hch hc ht hlast
  exact ⟨s', h1, h2, h3, h7, h8⟩

theorem claim_C1_witness :
    ∃ s', sABClit.deleteNxtPieceAndMove = some s' ∧
      chainIs s'.heap s'.head ([] ++ 0 :: 2 :: ([3] ++ [1])) = true ∧
      s'.tail = some 1 ∧
      s'.heap.length = sABClit.heap.length ∧
      s'.lengthList = (sABClit.lengthList + (u32 - 1)) % u32 :=
  claim_C1 sABClit [] [3] 0 1 2 3 (by decide) rfl rfl (by decide)

/-- C5, counterexample to the claim as stated: in the concrete scenario
(append A, B, C, then delete at the sentinel) `getLength()` does become 2,
but the traversal afterwards yields [B, C, A] (chain 0 → 2 → 3 → 1), not
[B, C]: the node adjacent to the cursor was moved to the end, not removed. -/
theorem claim_C5_cex :
    sDel.map (fun s => (s.getLength, chainIs s.heap s.head [0, 2, 3],
      chainIs s.heap s.head [0, 2, 3, 1])) = some (2, false, true) := by
  decide

/-- C5, amended: on a chain of three or more real nodes (cursor node with a
successor `x` that has a successor), one `deleteNxtPieceAndMove` reduces
`getLength()` by exactly 1 and MOVES exactly the node adjacent to the
cursor to the end of the chain, leaving all other nodes and their relative
order unchanged (the cursor stays put); in the concrete A, B, C scenario
with the cursor at the sentinel, `getLength() = 2` and traversal yields
[B, C, A]. -/
theorem claim_C5 (s : ListPiece) (P Q : List Nat) (c x y t : Nat)
    (hch : chainIs s.heap s.head (P ++ c :: x :: y :: Q) = true)
    (hc : s.currentPiece = some c)
    (ht : s.tail = some t)
    (hlast : (y :: Q).getLast? = some t)
    (hl1 : 1 ≤ s.lengthList)
    (hl2 : s.lengthList < u32) :
    ∃ s', s.deleteNxtPieceAndMove = some s' ∧
      s'.getLength = s.getLength - 1 ∧
      chainIs s'.heap s'.head (P ++ c :: y :: (Q ++ [x])) = true ∧
      s'.currentPiece = some c := by
  obtain ⟨s', h1, h2, -, h4, -, -, -, h8, -⟩ :=
    deleteNxt_chain s P Q c x y t hch hc ht hlast
  refine ⟨s', h1, ?_, h2, h4⟩
  show s'.lengthList = s.lengthList - 1
  rw [h8]
  simp only [u32] at hl2 ⊢
  omega

theorem claim_C5_witness :
    ∃ s', sABClit.deleteNxtPieceAndMove = some s' ∧
      s'.getLength = sABClit.getLength - 1 ∧
      chainIs s'.heap s'.head ([] ++ 0 :: 2 :: ([3] ++ [1])) = true ∧
      s'.currentPiece = some 0 :=
  claim_C5 sABClit [] [3] 0 1 2 3 (by decide) rfl rfl (by decide)
    (by decide) (by decide)

/-- C3, counterexample to the claim as stated: the state `sDel` is reached
from construction by three appends (all taking the first, well-behaved
branch of `addPiece`) and one `deleteNxtPieceAndMove` under its
precondition — the ambiguous else-branch is never taken — yet
`lengthList = 2` while 3 real nodes (addresses 2, 3, 1) are reachable from
`head.next`: `deleteNxtPieceAndMove` also breaks the equality, because it
decrements the counter without removing any node from the chain. -/
theorem claim_C3_cex :
    sDel.map (fun s => (s.lengthList, chainIs s.heap s.head (0 :: [2, 3, 1]),
      ([2, 3, 1] : List Nat).length)) = some (2, true, 3) := by
  decide

/-- C3, amended: `lengthList` equals the number of real (non-sentinel)
nodes reachable from `head.next` after construction, and first-branch
appends preserve the equality; but in addition to the ambiguous else-branch
of `addPiece`, `deleteNxtPieceAndMove` also desynchronizes it: the call
decrements `lengthList` while the chain keeps exactly the same number of
nodes, so afterwards `lengthList` is one less than the real node count. -/
theorem claim_C3 :
    (chainIs ListPiece.mkEmpty.heap ListPiece.mkEmpty.head [0] = true ∧
      ListPiece.mkEmpty.lengthList = 0) ∧
    (∀ (s : ListPiece) (hd t0 : Nat) (l : List Nat) (v : Piece),
      chainIs s.heap s.head (hd :: l) = true →
      s.lastActivePiece = some t0 →
      (hd :: l).getLast? = some t0 →
      s.lengthList = l.length →
      l.length + 1 < u32 →
      ∃ s', s.addPiece v = some s' ∧
        chainIs s'.heap s'.head ((hd :: l) ++ [s.heap.length]) = true ∧
        s'.lengthList = (l ++ [s.heap.length]).length) ∧
    (∀ (s : ListPiece) (P Q : List Nat) (c x y t : Nat),
      chainIs s.heap s.head (P ++ c :: x :: y :: Q) = true →
      s.currentPiece = some c →
      s.tail = some t →
      (y :: Q).getLast? = some t →
      1 ≤ s.lengthList →
      s.lengthList < u32 →
      ∃ s', s.deleteNxtPieceAndMove = some s' ∧
        chainIs s'.heap s'.head (P ++ c :: y :: (Q ++ [x])) = true ∧
        (P ++ c :: y :: (Q ++ [x])).length = (P ++ c :: x :: y :: Q).length ∧
        s'.lengthList = s.lengthList - 1) := by
  refine ⟨⟨by decide, rfl⟩, ?_, ?_⟩
  · intro s hd t0 l v hch hlap hlast hlen hfit
    obtain ⟨s', h1, h2, -, -, -, -, -, h8⟩ :=
      addPiece_chain s (hd :: l) t0 v hch hlap hlast
    refine ⟨s', h1, h2, ?_⟩
    rw [h8, hlen]
    have hl : (l ++ [s.heap.length]).length = l.length + 1 := by simp
    rw [hl]
    exact Nat.mod_eq_of_lt hfit
  · intro s P Q c x y t hch hc ht hlast hl1 hl2
    obtain ⟨s', h1, h2, -, -, -, -, -, h8, -⟩ :=
      deleteNxt_chain s P Q c x y t hch hc ht hlast
    refine ⟨s', h1, h2, ?_, ?_⟩
    · simp only [List.length_append, List.length_cons, List.length_nil]
    · rw [h8]
      simp only [u32] at hl2 ⊢
      omega

theorem claim_C3_witness :
    ∃ s', sABClit.deleteNxtPieceAndMove = some s' ∧
      chainIs s'.heap s'.head ([] ++ 0 :: 2 :: ([3] ++ [1])) = true ∧
      (([] : List Nat) ++ 0 :: 2 :: ([3] ++ [1])).length =
        (([] : List Nat) ++ 0 :: 1 :: 2 :: [3]).length ∧
      s'.lengthList = sABClit.lengthList - 1 :=
  claim_C3.2.2 sABClit [] [3] 0 1 2 3 (by decide) rfl rfl (by decide)
    (by decide) (by decide)

/-- C10, counterexample to the claim as stated: in the concrete A, B, C
scenario with the cursor at the sentinel (address 0), the old tail
(address 3, a node different from the cursor) has its successor link
changed by `deleteNxtPieceAndMove` from the terminator to `some 1` — so
more than `currentPiece`'s successor link, `tail` and `lengthList` change.
The cursor itself indeed stays at address 0. -/
theorem claim_C10_cex :
    sABC.map (fun s => (s.heap.get? 3).map Piece.nxt) = some (some none) ∧
    sDel.map (fun s => ((s.heap.get? 3).map Piece.nxt, s.currentPiece)) =
      some (some (some 1), some 0) := by
  decide

/-- C10, amended: `deleteNxtPieceAndMove` never advances `currentPiece`
(despite its name, the cursor refers to the same node afterwards), and the
mutation is confined to exactly: `currentPiece`'s successor link, the old
tail's successor link, the moved node's successor link, `tail`, and
`lengthList`; `head`, `lastActivePiece` and every other node are
unchanged. -/
theorem claim_C10 (s : ListPiece) (c x y t : Nat) (cP xP tP : Piece)
    (hc : s.currentPiece = some c)
    (ht : s.tail = some t)
    (hcP : s.heap.get? c = some cP)
    (hxP : s.heap.get? x = some xP)
    (htP : s.heap.get? t = some tP)
    (hcx : cP.nxt = some x)
    (hxy : xP.nxt = some y)
    (htn : tP.nxt = none)
    (hne : c ≠ x) :
    ∃ s', s.deleteNxtPieceAndMove = some s' ∧
      s'.currentPiece = s.currentPiece ∧
      s'.head = s.head ∧
      s'.lastActivePiece = s.lastActivePiece ∧
      s'.heap.get? c = some { cP with nxt := xP.nxt } ∧
      s'.heap.get? t = some { tP with nxt := some x } ∧
      s'.heap.get? x = some { xP with nxt := none } ∧
      s'.tail = some x ∧
      s'.lengthList = (s.lengthList + (u32 - 1)) % u32 ∧
      (∀ a, a ≠ c → a ≠ x → a ≠ t → s'.heap.get? a = s.heap.get? a) := by
  have htc : t ≠ c := by
    intro e
    rw [e, hcP] at htP
    have h1 := Option.some.inj htP
    rw [← h1, hcx] at htn
    exact Option.noConfusion htn
  have htx : t ≠ x := by
    intro e
    rw [e, hxP] at htP
    have h1 := Option.some.inj htP
    rw [← h1, hxy] at htn
    exact Option.noConfusion htn
  have hclt := get?_lt_length s.heap c cP hcP
  have hxlt := get?_lt_length s.heap x xP hxP
  have htlt := get?_lt_length s.heap t tP htP
  have hdel := deleteNxt_spec s c x y t cP xP tP hc ht hcP hxP htP hcx hxy
    htn hne
  refine ⟨_, hdel, rfl, rfl, rfl, ?_, ?_, ?_, rfl, rfl, ?_⟩
  · show (hwrite (hwrite (hwrite s.heap t { tP with nxt := some x })
      c { cP with nxt := xP.nxt }) x { xP with nxt := none }).get? c =
      some { cP with nxt := xP.nxt }
    rw [hwrite_get_ne _ _ _ _ hne]
    apply hwrite_get_self
    rw [hwrite_length]
    exact hclt
  · show (hwrite (hwrite (hwrite s.heap t { tP with nxt := some x })
      c { cP with nxt := xP.nxt }) x { xP with nxt := none }).get? t =
      some { tP with nxt := some x }
    rw [hwrite_get_ne _ _ _ _ htx, hwrite_get_ne _ _ _ _ htc]
    exact hwrite_get_self _ _ _ htlt
  · show (hwrite (hwrite (hwrite s.heap t { tP with nxt := some x })
      c { cP with nxt := xP.nxt }) x { xP with nxt := none }).get? x =
      some { xP with nxt := none }
    apply hwrite_get_self
    rw [hwrite_length, hwrite_length]
    exact hxlt
  · intro a hac hax hat
    show (hwrite (hwrite (hwrite s.heap t { tP with nxt := some x })
      c { cP with nxt := xP.nxt }) x { xP with nxt := none }).get? a =
      s.heap.get? a
    rw [hwrite_get_ne _ _ _ _ hax, hwrite_get_ne _ _ _ _ hac,
      hwrite_get_ne _ _ _ _ hat]

theorem claim_C10_witness :
    ∃ s', sABClit.deleteNxtPieceAndMove = some s' ∧
      s'.currentPiece = sABClit.currentPiece ∧
      s'.head = sABClit.head ∧
      s'.lastActivePiece = sABClit.lastActivePiece ∧
      s'.heap.get? 0 = some { Piece.mk (some 1) [] with
        nxt := (Piece.mk (some 2) [1]).nxt } ∧
      s'.heap.get? 3 = some { Piece.mk none [3] with nxt := some 1 } ∧
      s'.heap.get? 1 = some { Piece.mk (some 2) [1] with nxt := none } ∧
      s'.tail = some 1 ∧
      s'.lengthList = (sABClit.lengthList + (u32 - 1)) % u32 ∧
      (∀ a, a ≠ 0 → a ≠ 1 → a ≠ 3 →
        s'.heap.get? a = sABClit.heap.get? a) :=
  claim_C10 sABClit 0 1 2 3 (Piece.mk (some 1) []) (Piece.mk (some 2) [1])
    (Piece.mk none [3]) rfl rfl rfl rfl rfl rfl rfl rfl (by decide)

/-- C2, counterexample to the claim as stated: in the A, B, C state the
broadcast invokes the node-level accumulator on the SENTINEL as well — the
visit sequence is [0, 1, 2, 3] and the sentinel node's log is mutated —
whereas the claim says it is invoked on the real nodes 1, 2, 3 and on no
other node. -/
theorem claim_C2_cex :
    (sABC.bind (fun s => s.addPointAndPenalty 7)).map
      (fun r => (r.2, r.1.heap.map Piece.log, r.1.currentPiece)) =
      some ([0, 1, 2, 3], [[7], [1, 7], [2, 7], [3, 7]], none) ∧
    sABC.map (fun s => (s.head, chainIs s.heap s.head [0, 1, 2, 3])) =
      some (some 0, true) := by
  decide

/-- C2, amended: `addPointAndPenalty` resets the cursor to the sentinel and
then invokes the node-level `addPointAndPenalty(point)` once on EVERY node
of the chain — the sentinel first, then every real node, in list order,
each exactly once and none other — and leaves the cursor at the terminator
when done. -/
theorem claim_C2 (s : ListPiece) (pt : Nat) (hd : Nat) (l : List Nat)
    (hch : chainIs s.heap s.head (hd :: l) = true) :
    ∃ s', s.addPointAndPenalty pt = some (s', hd :: l) ∧
      (hd :: l).Nodup ∧
      s'.currentPiece = none ∧
      s'.head = s.head ∧
      s'.tail = s.tail ∧
      s'.lastActivePiece = s.lastActivePiece ∧
      s'.lengthList = s.lengthList ∧
      s'.heap.length = s.heap.length ∧
      (∀ a p, a ∈ hd :: l → s.heap.get? a = some p →
        s'.heap.get? a = some (pieceAddPointAndPenalty p pt)) ∧
      (∀ a, a ∉ hd :: l → s'.heap.get? a = s.heap.get? a) := by
  obtain ⟨hp, hrun, hnd, hl, hupd, hfr⟩ := addPointAndPenalty_run s pt hd l hch
  exact ⟨{ s with heap := hp, currentPiece := none }, hrun, hnd, rfl, rfl,
    rfl, rfl, rfl, hl, hupd, hfr⟩

theorem claim_C2_witness :
    ∃ s', ListPiece.mkEmpty.addPointAndPenalty 5 = some (s', 0 :: []) ∧
      (0 :: ([] : List Nat)).Nodup ∧
      s'.currentPiece = none ∧
      s'.head = ListPiece.mkEmpty.head ∧
      s'.tail = ListPiece.mkEmpty.tail ∧
      s'.lastActivePiece = ListPiece.mkEmpty.lastActivePiece ∧
      s'.lengthList = ListPiece.mkEmpty.lengthList ∧
      s'.heap.length = ListPiece.mkEmpty.heap.length ∧
      (∀ a p, a ∈ 0 :: ([] : List Nat) →
        ListPiece.mkEmpty.heap.get? a = some p →
        s'.heap.get? a = some (pieceAddPointAndPenalty p 5)) ∧
      (∀ a, a ∉ 0 :: ([] : List Nat) →
        s'.heap.get? a = ListPiece.mkEmpty.heap.get? a) :=
  claim_C2 ListPiece.mkEmpty 5 0 [] (by decide)
